import Mathlib

/-!
Verification of the mrmd-monitor coordination kernel.

This file gives a shallow embedding of the mrmd-monitor source
(`src/terminal.js`, `src/document.js`, `src/execution.js`,
`src/coordination.js`) and proves or refutes the specification's claims
about it.  Each JavaScript function is translated into an executable Lean
definition over explicit state; machine timestamps, client ids and the
random source are passed as arguments.
-/

set_option maxHeartbeats 1000000

/-! ## Terminal projector (`src/terminal.js`, class `TerminalBuffer`)

The buffer state mirrors the constructor fields `_lines`, `_row`, `_col`,
`_savedCursor`.  Lines are lists of characters. -/
structure TermBuf where
  lines : List (List Char)
  row : Nat
  col : Nat
  saved : Option (Nat × Nat)
  deriving DecidableEq

/-- Initial state: one empty line, cursor at the origin, no saved cursor. -/
def TermBuf.start : TermBuf := ⟨[[]], 0, 0, none⟩

/-- `_ensureRow`: push empty lines until `lines.length > row`. -/
def ensureRowLines (lines : List (List Char)) (row : Nat) : List (List Char) :=
  lines ++ List.replicate (row + 1 - lines.length) []

def TermBuf.ensure (b : TermBuf) (row : Nat) : TermBuf :=
  { b with lines := ensureRowLines b.lines row }

/-- Pad a line with spaces until `line.length > col` (the `while` loop in
`_writeChar`). -/
def padTo (line : List Char) (col : Nat) : List Char :=
  line ++ List.replicate (col + 1 - line.length) ' '

/-- `_writeChar`: ensure the row exists, pad the line to the cursor column,
overwrite the cell, advance the column. -/
def TermBuf.putChar (b : TermBuf) (c : Char) : TermBuf :=
  let lines := ensureRowLines b.lines b.row
  let line := lines.getD b.row []
  { b with lines := lines.set b.row ((padTo line b.col).set b.col c),
           col := b.col + 1 }

/-- Handling of one non-escape character (the `else` chain in `write`):
`\r`, `\n`, `\b`, `\t`, printable (code point at least 32), other control
characters ignored.  `Nat` subtraction models `Math.max(0, _)`. -/
def charStep (b : TermBuf) (c : Char) : TermBuf :=
  if c = '\r' then { b with col := 0 }
  else if c = '\n' then TermBuf.ensure { b with row := b.row + 1, col := 0 } (b.row + 1)
  else if c = '\x08' then { b with col := b.col - 1 }
  else if c = '\t' then { b with col := b.col / 8 * 8 + 8 }
  else if 32 ≤ c.toNat then b.putChar c
  else b

/-- Parameter bytes accepted by the CSI parser (`/[0-9;]/`). -/
def isParamChar (c : Char) : Bool := c.isDigit || c = ';'

/-- `String.prototype.split(';')` on the collected parameter bytes. -/
def splitSemi : List Char → List (List Char)
  | [] => [[]]
  | c :: rest =>
    if c = ';' then [] :: splitSemi rest
    else
      match splitSemi rest with
      | [] => [[c]]
      | g :: gs => (c :: g) :: gs

/-- `parseInt(s) || 0` on a string of digits (empty string gives 0, matching
`parseInt('') = NaN` collapsed by `|| 0`). -/
def decVal (l : List Char) : Nat :=
  l.foldl (fun acc c => acc * 10 + (c.toNat - 48)) 0

/-- `params ? params.split(';').map(n => parseInt(n) || 0) : []`. -/
def parseParams (params : List Char) : List Nat :=
  if params = [] then [] else (splitSemi params).map decVal

/-- `nums[i] || 1`: a missing or zero parameter collapses to 1 because `0`
is falsy in JavaScript. -/
def orOne (v : Option Nat) : Nat :=
  match v with
  | some k => if k = 0 then 1 else k
  | none => 1

/-- `_clearToEndOfLine`: truncate the current line at the cursor column. -/
def TermBuf.clearToEndOfLine (b : TermBuf) : TermBuf :=
  { b with lines := b.lines.set b.row ((b.lines.getD b.row []).take b.col) }

/-- `_clearFromStartOfLine`: overwrite cells `0 .. col` (bounded by the line
length) with spaces. -/
def TermBuf.clearFromStartOfLine (b : TermBuf) : TermBuf :=
  let line := b.lines.getD b.row []
  let k := min (b.col + 1) line.length
  { b with lines := b.lines.set b.row (List.replicate k ' ' ++ line.drop k) }

/-- `_clearLine`: empty the current line. -/
def TermBuf.clearLine (b : TermBuf) : TermBuf :=
  { b with lines := b.lines.set b.row [] }

/-- `_clearToEndOfScreen`: clear to end of line, then empty every later row. -/
def TermBuf.clearToEndOfScreen (b : TermBuf) : TermBuf :=
  let b1 := b.clearToEndOfLine
  { b1 with lines := b1.lines.take (b.row + 1) ++
      List.replicate (b1.lines.length - (b.row + 1)) [] }

/-- `_clearFromStartOfScreen`: empty every row before the current one, then
clear the current line from its start. -/
def TermBuf.clearFromStartOfScreen (b : TermBuf) : TermBuf :=
  let k := min b.row b.lines.length
  TermBuf.clearFromStartOfLine { b with lines := List.replicate k [] ++ b.lines.drop k }

/-- `_clearScreen`: reset lines and cursor (the saved cursor is untouched). -/
def TermBuf.clearScreen (b : TermBuf) : TermBuf :=
  { b with lines := [[]], row := 0, col := 0 }

/-- The `switch (cmd)` of `_parseEscapeSequence`, reached when the sequence
is neither private-mode nor SGR. -/
def applyCsi (b : TermBuf) (params : List Char) (cmd : Char) : TermBuf :=
  let nums := parseParams params
  let n := orOne nums.head?
  if cmd = 'A' then { b with row := b.row - n }
  else if cmd = 'B' then TermBuf.ensure { b with row := b.row + n } (b.row + n)
  else if cmd = 'C' then { b with col := b.col + n }
  else if cmd = 'D' then { b with col := b.col - n }
  else if cmd = 'E' then TermBuf.ensure { b with row := b.row + n, col := 0 } (b.row + n)
  else if cmd = 'F' then { b with row := b.row - n, col := 0 }
  else if cmd = 'G' then { b with col := n - 1 }
  else if cmd = 'H' ∨ cmd = 'f' then
    let r := orOne nums.head? - 1
    let c := orOne nums[1]? - 1
    TermBuf.ensure { b with row := r, col := c } r
  else if cmd = 'J' then
    if n = 0 ∨ params = [] then b.clearToEndOfScreen
    else if n = 1 then b.clearFromStartOfScreen
    else if n = 2 ∨ n = 3 then b.clearScreen
    else b
  else if cmd = 'K' then
    if n = 0 ∨ params = [] then b.clearToEndOfLine
    else if n = 1 then b.clearFromStartOfLine
    else if n = 2 then b.clearLine
    else b
  else if cmd = 's' then { b with saved := some (b.row, b.col) }
  else if cmd = 'u' then
    match b.saved with
    | some (r, c) => { b with row := r, col := c }
    | none => b
  else b

/-- `if (isPrivateMode || cmd === 'm') return j;` — otherwise dispatch; a
missing command byte (`cmd = ''`) matches no `switch` case. -/
def escApply (b : TermBuf) (priv : Bool) (params : List Char) (cmd : Option Char) : TermBuf :=
  if priv then b
  else
    match cmd with
    | none => b
    | some c => if c = 'm' then b else applyCsi b params c

/-- The pieces of one CSI sequence as consumed by `_parseEscapeSequence`
from the text following `ESC [`: private-mode flag, parameter bytes,
command byte (`none` when the text ends first), remaining text. -/
structure EscParts where
  priv : Bool
  params : List Char
  cmd : Option Char
  rest : List Char
  deriving DecidableEq

/-- `text[j] === '?'` check at the start of the sequence body. -/
def escPriv (l : List Char) : Bool := l.head? = some '?'

/-- The sequence body after the optional `?`. -/
def escBody (l : List Char) : List Char :=
  if l.head? = some '?' then l.tail else l

/-- Split the text following `ESC [` exactly as `_parseEscapeSequence` does:
optional `?`, then parameter bytes, then the command byte. -/
def escSplit (l : List Char) : EscParts :=
  match (escBody l).dropWhile isParamChar with
  | [] => ⟨escPriv l, (escBody l).takeWhile isParamChar, none, []⟩
  | c :: rest => ⟨escPriv l, (escBody l).takeWhile isParamChar, some c, rest⟩

/-- `TerminalBuffer.write`: scan the text, dispatching `ESC [` sequences
(recognised by a one-character lookahead) to the CSI parser and all other
characters to `charStep`. -/
def writeChars (b : TermBuf) (l : List Char) : TermBuf :=
  match l with
  | [] => b
  | c :: rest =>
    if c = '\x1b' ∧ rest.head? = some '[' then
      let p := escSplit rest.tail
      writeChars (escApply b p.priv p.params p.cmd) p.rest
    else
      writeChars (charStep b c) rest
termination_by l.length
decreasing_by
  · simp only [List.length_cons]
    have h1 : (escSplit rest.tail).rest.length ≤ rest.tail.length := by
      have hbody : (escBody rest.tail).length ≤ rest.tail.length := by
        unfold escBody
        split
        · cases rest.tail with
          | nil => simp
          | cons c2 t2 => simp
        · exact Nat.le_refl _
      have hdrop : ((escBody rest.tail).dropWhile isParamChar).length ≤
          (escBody rest.tail).length := by
        induction escBody rest.tail with
        | nil => simp
        | cons c2 t2 ih =>
          rw [List.dropWhile_cons]
          split
          · simp only [List.length_cons]
            omega
          · simp
      unfold escSplit
      split
      · simp
      · next c2 rest2 heq =>
        have hlen : (c2 :: rest2).length ≤ (escBody rest.tail).length := heq ▸ hdrop
        simp only [List.length_cons] at hlen
        simp only []
        omega
    have h2 : rest.tail.length ≤ rest.length := by
      cases rest with
      | nil => simp
      | cons x t => simp
    omega
  · simp

/-- `write` on a string. -/
def TermBuf.write (b : TermBuf) (s : String) : TermBuf :=
  writeChars b s.data

/-- Trailing spaces trimmed from a line (`trimEnd`; buffer cells are only
ever printable characters or the space padding inserted by `_writeChar`). -/
def trimEndSpaces (l : List Char) : List Char :=
  (l.reverse.dropWhile (fun c => c = ' ')).reverse

/-- `toString`: join each line, trim trailing spaces, drop trailing empty
lines, join with newlines. -/
def TermBuf.snapshot (b : TermBuf) : String :=
  let output := b.lines.map (fun line => String.mk (trimEndSpaces line))
  String.intercalate "\n" ((output.reverse.dropWhile (fun s => s = "")).reverse)

/-- `clear()`. -/
def TermBuf.clearAll (_b : TermBuf) : TermBuf := TermBuf.start

/-! ### A character-at-a-time reformulation of the scanner

`write` recognises `ESC [` by a one-character lookahead and then consumes
the whole CSI sequence in one step.  For reasoning about chunk boundaries
we re-express the very same scan as a left fold over single characters,
carrying the scanner position as an explicit mode, and prove the two
formulations equal.  The modes are: ordinary text, just after an `ESC`
whose follower is not yet seen, just after `ESC [`, and inside the
parameter bytes of a CSI sequence. -/
inductive ScanMode where
  | text
  | sawEsc
  | csiStart
  | csiBody (priv : Bool) (params : List Char)
  deriving DecidableEq

def scanStep : ScanMode × TermBuf → Char → ScanMode × TermBuf
  | (ScanMode.text, b), c =>
    if c = '\x1b' then (ScanMode.sawEsc, b) else (ScanMode.text, charStep b c)
  | (ScanMode.sawEsc, b), c =>
    if c = '[' then (ScanMode.csiStart, b)
    else if c = '\x1b' then (ScanMode.sawEsc, b)
    else (ScanMode.text, charStep b c)
  | (ScanMode.csiStart, b), c =>
    if c = '?' then (ScanMode.csiBody true [], b)
    else if isParamChar c then (ScanMode.csiBody false [c], b)
    else (ScanMode.text, escApply b false [] (some c))
  | (ScanMode.csiBody priv ps, b), c =>
    if isParamChar c then (ScanMode.csiBody priv (ps ++ [c]), b)
    else (ScanMode.text, escApply b priv ps (some c))

def scanWrite (b : TermBuf) (l : List Char) : TermBuf :=
  (l.foldl scanStep (ScanMode.text, b)).2

/-- The mode component of the scan, independent of the buffer. -/
def scanModeStep : ScanMode → Char → ScanMode
  | ScanMode.text, c => if c = '\x1b' then ScanMode.sawEsc else ScanMode.text
  | ScanMode.sawEsc, c =>
    if c = '[' then ScanMode.csiStart
    else if c = '\x1b' then ScanMode.sawEsc
    else ScanMode.text
  | ScanMode.csiStart, c =>
    if c = '?' then ScanMode.csiBody true []
    else if isParamChar c then ScanMode.csiBody false [c]
    else ScanMode.text
  | ScanMode.csiBody priv ps, c =>
    if isParamChar c then ScanMode.csiBody priv (ps ++ [c])
    else ScanMode.text

/-- A chunk is scan-complete when scanning it alone ends in ordinary text
mode: it does not end with a dangling `ESC` nor inside an unterminated CSI
sequence. -/
def chunkComplete (l : List Char) : Bool :=
  decide (l.foldl scanModeStep ScanMode.text = ScanMode.text)

/-- Successive `write(chunk)` calls, each starting the scanner afresh. -/
def writeAll (b : TermBuf) (chunks : List (List Char)) : TermBuf :=
  chunks.foldl writeChars b

/-! ## Document writer (`src/document.js`, class `DocumentWriter`)

The shared text is modelled as a list of characters.  `String.indexOf` is
`indexOfFrom`; the `while` loop of `findOutputBlock` that skips
backtick-triples not at the start of a line is `findClosingAux`, whose
fuel argument bounds its iteration count (the loop advances the search
position by at least 3 each round). -/
/-- `text.indexOf(pat)` scanning from the front: first index at which `pat`
occurs, `none` when it never does. -/
def findSubAux : List Char → List Char → Nat → Option Nat
  | [], pat, i => if pat = [] then some i else none
  | t@(_ :: rest), pat, i =>
    if t.take pat.length = pat then some i else findSubAux rest pat (i + 1)

/-- `text.indexOf(pat, start)`. -/
def indexOfFrom (text pat : List Char) (start : Nat) : Option Nat :=
  match findSubAux (text.drop start) pat 0 with
  | none => none
  | some k => some (start + k)

/-- The closing-fence loop of `findOutputBlock`: the first occurrence of
three backticks at or after `searchPos` that sits at the start of a line;
occurrences not at a line start are skipped by restarting the search three
positions later. -/
def findClosingAux (text : List Char) : Nat → Nat → Option Nat
  | 0, _ => none
  | fuel + 1, searchPos =>
    if searchPos < text.length then
      match indexOfFrom text (('`') :: ('`') :: ('`') :: []) searchPos with
      | none => none
      | some pos =>
        if pos = 0 ∨ text.getD (pos - 1) ' ' = '\n' then some pos
        else findClosingAux text fuel (pos + 3)
    else none

structure OutputBlock where
  markerStart : Nat
  contentStart : Nat
  contentEnd : Nat
  deriving DecidableEq

/-- The opening marker string `` ```output:<execId> ``. -/
def markerFor (execId : List Char) : List Char :=
  ("```output:").data ++ execId

/-- `findOutputBlock(execId)`: locate the marker by substring search, the
newline after it, and the closing fence (or the text end when there is
none). -/
def findOutputBlock (text execId : List Char) : Option OutputBlock :=
  match indexOfFrom text (markerFor execId) 0 with
  | none => none
  | some markerStart =>
    match indexOfFrom text (('\n') :: []) markerStart with
    | none => none
    | some nl =>
      let contentStart := nl + 1
      let contentEnd := (findClosingAux text (text.length + 1) contentStart).getD text.length
      some ⟨markerStart, contentStart, contentEnd⟩

/-- `hasOutputBlock`. -/
def hasOutputBlock (text execId : List Char) : Bool :=
  (findOutputBlock text execId).isSome

/-- `getOutputContent`: `text.slice(contentStart, contentEnd)`. -/
def getOutputContent (text execId : List Char) : Option (List Char) :=
  (findOutputBlock text execId).map fun b =>
    (text.drop b.contentStart).take (b.contentEnd - b.contentStart)

/-- `Y.Text.delete(index, len)` on the text content. -/
def ytextDelete (text : List Char) (index len : Nat) : List Char :=
  text.take index ++ text.drop (index + len)

/-- `Y.Text.insert(index, content)` on the text content. -/
def ytextInsert (text : List Char) (index : Nat) (content : List Char) : List Char :=
  text.take index ++ content ++ text.drop index

/-- `replaceOutput(execId, content)`: delete the span, then insert.  The
two `Y.Text` calls are issued as separate top-level operations (there is no
surrounding `ydoc.transact`), so each is its own Yjs transaction; the
returned list is the sequence of document states observable at transaction
boundaries, in order. -/
def replaceOutput (text execId content : List Char) : Bool × List (List Char) :=
  match findOutputBlock text execId with
  | none => (false, [])
  | some block =>
    let existingLength := block.contentEnd - block.contentStart
    if 0 < existingLength then
      let afterDelete := ytextDelete text block.contentStart existingLength
      (true, [afterDelete, ytextInsert afterDelete block.contentStart content])
    else
      (true, [ytextInsert text block.contentStart content])

/-- `appendOutput(execId, content)`: insert just before the closing fence. -/
def appendOutput (text execId content : List Char) : Bool × List (List Char) :=
  match findOutputBlock text execId with
  | none => (false, [])
  | some block => (true, [ytextInsert text block.contentEnd content])

/-! ### Claims about the document writer -/
/-- The marker string occurs in the text at index `i`. -/
def MarkerAt (text execId : List Char) (i : Nat) : Prop :=
  (text.drop i).take (markerFor execId).length = markerFor execId

instance (text execId : List Char) (i : Nat) : Decidable (MarkerAt text execId i) := by
  unfold MarkerAt
  infer_instance

/-- Modelled from the spec's wording, for comparison with the source: an
opening marker line bearing exactly the queried execId — the marker text
followed by a line end (the next character is a newline, or the text ends
there). -/
def SpecExactMarkerLineAt (text execId : List Char) (i : Nat) : Prop :=
  MarkerAt text execId i ∧
    (i + (markerFor execId).length = text.length ∨
      text.getD (i + (markerFor execId).length) ' ' = '\n')

instance (text execId : List Char) (i : Nat) :
    Decidable (SpecExactMarkerLineAt text execId i) := by
  unfold SpecExactMarkerLineAt
  infer_instance

/-! ## Coordination protocol (`src/coordination.js`, class `CoordinationProtocol`)

The shared `executions` map is a function from execution id to optional
record; `Y.Map.set` is `mapSet`.  The caller's client id and the value of
`Date.now()` are passed as arguments. -/
inductive ExecStatus where
  | requested
  | claimed
  | ready
  | running
  | completed
  | error
  | cancelled
  deriving DecidableEq

structure ErrInfo where
  type : String
  message : String
  deriving DecidableEq

structure StdinRequestV where
  prompt : String
  password : Bool
  requestedAt : Nat
  deriving DecidableEq

structure StdinResponseV where
  text : String
  respondedAt : Nat
  deriving DecidableEq

structure DisplayItem where
  mimeType : String
  data : Option String
  assetId : Option String
  url : Option String
  deriving DecidableEq

/-- An execution record (the `ExecutionRequest` typedef): the exact field
set written by `requestExecution`.  Opaque payloads (`outputPosition`,
`result`) are carried as strings. -/
structure ExecRecord where
  id : String
  cellId : Option String
  code : String
  language : String
  runtimeUrl : String
  session : String
  status : ExecStatus
  requestedBy : Nat
  requestedAt : Nat
  claimedBy : Option Nat
  claimedAt : Option Nat
  outputBlockReady : Bool
  outputPosition : Option String
  startedAt : Option Nat
  completedAt : Option Nat
  stdinRequest : Option StdinRequestV
  stdinResponse : Option StdinResponseV
  result : Option String
  error : Option ErrInfo
  displayData : List DisplayItem
  deriving DecidableEq

def ExecMap : Type := String → Option ExecRecord

/-- `Y.Map.set`. -/
def mapSet (m : ExecMap) (k : String) (v : ExecRecord) : ExecMap :=
  fun k2 => if k2 = k then some v else m k2

/-- `claimExecution` (monitor role): read the record; refuse when it is
absent, its status is not `requested`, or it is already claimed; otherwise
replace the whole record with one whose `status`, `claimedBy` and
`claimedAt` are updated, and report success. -/
def claimExecution (m : ExecMap) (clientId now : Nat) (execId : String) :
    Bool × ExecMap :=
  match m execId with
  | none => (false, m)
  | some exec =>
    if exec.status ≠ ExecStatus.requested then (false, m)
    else if exec.claimedBy ≠ none then (false, m)
    else
      (true, mapSet m execId
        { exec with
            status := ExecStatus.claimed
            claimedBy := some clientId
            claimedAt := some now })

/-! ## Execution id generation (`CoordinationProtocol.generateExecId`)

`Date.now()` is the `now` argument; the string produced by
`Math.random().toString(36)` is the `rnd` argument, and `.slice(2, 8)` is
drop 2 / take 6. -/
def digitChar (n : Nat) : Char := Char.ofNat (48 + n)

/-- Decimal rendering of `${Date.now()}` (fuel-based; the fuel `n + 1`
always suffices since the value shrinks by a factor of ten each step). -/
def natToDecAux : Nat → Nat → List Char → List Char
  | 0, _, acc => acc
  | fuel + 1, n, acc =>
    let acc1 := digitChar (n % 10) :: acc
    if n < 10 then acc1 else natToDecAux fuel (n / 10) acc1

def natToDec (n : Nat) : List Char := natToDecAux (n + 1) n []

/-- `` `exec-${Date.now()}-${Math.random().toString(36).slice(2, 8)}` ``. -/
def generateExecId (now : Nat) (rnd : List Char) : List Char :=
  ("exec-").data ++ natToDec now ++ ('-') :: ((rnd.drop 2).take 6)

def isBase36Char (c : Char) : Bool := c.isDigit || ('a' ≤ c && c ≤ 'z')

/-- Modelled from the JavaScript runtime: the possible outputs of
`Math.random().toString(36)` for a value in `[0, 1)` — `"0"` when the value
is zero, otherwise `"0."` followed by at least one base-36 digit. -/
def ValidRandomRepr (s : List Char) : Prop :=
  s = ('0') :: [] ∨
    ∃ ds, ds ≠ [] ∧ (∀ c ∈ ds, isBase36Char c = true) ∧ s = ('0') :: ('.') :: ds

/-- The regular expression `^exec-\d+-[0-9a-z]{6}$` as a decomposition. -/
def MatchesExecIdExact (s : List Char) : Prop :=
  ∃ d r, d ≠ [] ∧ (∀ c ∈ d, Char.isDigit c = true) ∧ r.length = 6 ∧
    (∀ c ∈ r, isBase36Char c = true) ∧ s = ("exec-").data ++ d ++ ('-') :: r

/-! ## Runtime client (`src/execution.js`, class `ExecutionHandler`)

The SSE stream is modelled at the level of dispatched `(event, data)`
frames; data objects are flat string maps.  The registry of active
executions (`_activeExecutions`) is a list of execution ids standing for
the keys of the `Map`; the abort controllers themselves carry no state the
claims need.  The overall outcome of the `fetch`/read loop — completion,
HTTP failure, network failure, or an `AbortError` raised at an await —
selects a `FetchOutcome` branch. -/
def EvData : Type := List (String × String)

instance : DecidableEq EvData := by
  unfold EvData
  infer_instance

def getField (d : EvData) (k : String) : String :=
  (d.lookup k).getD ""

/-- One observable callback invocation. -/
inductive CbCall where
  | onStart
  | onStdout (chunk accumulated : String)
  | onStderr (chunk accumulated : String)
  | onStdinRequest (d : EvData)
  | onDisplay (d : EvData)
  | onResult (d : EvData)
  | onError (e : ErrInfo ⊕ EvData)
  | onDone
  deriving DecidableEq

/-- A value that `execute` can return: the verbatim `result`-event data, the
default `{success: true}`, or `{success: false, error: …}` with either a
constructed `{type, message}` error or a verbatim `error`-event payload. -/
inductive RetVal where
  | dataOf (d : EvData)
  | okTrue
  | failTyped (type message : String)
  | failData (d : EvData)
  deriving DecidableEq

/-- `_handleEvent`: dispatch one SSE event to the callbacks; returns the
calls made and the result value when the event is `result` or `error`. -/
def handleEvent (event : String) (d : EvData) : List CbCall × Option RetVal :=
  if event = "start" then ([], none)
  else if event = "stdout" then
    ([CbCall.onStdout (getField d ("content")) (getField d ("accumulated"))], none)
  else if event = "stderr" then
    ([CbCall.onStderr (getField d ("content")) (getField d ("accumulated"))], none)
  else if event = "stdin_request" then ([CbCall.onStdinRequest d], none)
  else if event = "display" then ([CbCall.onDisplay d], none)
  else if event = "asset" then
    ([CbCall.onDisplay
        [(("mimeType"), getField d ("mimeType")),
         (("assetId"), getField d ("path")),
         (("url"), getField d ("url"))]], none)
  else if event = "result" then ([CbCall.onResult d], some (RetVal.dataOf d))
  else if event = "error" then
    ([CbCall.onError (Sum.inr d)], some (RetVal.failData d))
  else if event = "done" then ([], none)
  else ([], none)

/-- The streaming loop over dispatched frames: accumulate callback calls;
`finalResult = handleEvent(...) || finalResult` keeps the latest non-null
result. -/
def processEvents : List (String × EvData) → List CbCall × Option RetVal
  | [] => ([], none)
  | ev :: rest =>
    let hd := handleEvent ev.1 ev.2
    let tl := processEvents rest
    (hd.1 ++ tl.1, match tl.2 with
      | some v => some v
      | none => hd.2)

/-- How the awaited request/stream settles, as seen by the `try`/`catch` of
`execute`. -/
inductive FetchOutcome where
  /-- `response.ok` false: body read, error thrown before `onStart`. -/
  | httpErr (status : Nat) (body : String)
  /-- network failure before the response arrives. -/
  | netErrEarly (msg : String)
  /-- network failure while streaming, after the listed frames. -/
  | netErrMid (consumed : List (String × EvData)) (msg : String)
  /-- `AbortError` before the response arrives. -/
  | abortEarly
  /-- `AbortError` while streaming, after the listed frames. -/
  | abortMid (consumed : List (String × EvData))
  /-- the stream ends normally after the listed frames. -/
  | complete (events : List (String × EvData))

structure ExecEnd where
  retval : Option RetVal
  thrown : Option String
  calls : List CbCall
  reg : List String
  deriving DecidableEq

/-- `Map.set` on the registry keys. -/
def insertReg (reg : List String) (e : String) : List String :=
  if e ∈ reg then reg else reg ++ [e]

/-- `Map.delete` on the registry keys. -/
def removeReg (reg : List String) (e : String) : List String :=
  reg.filter (fun x => x ≠ e)

/-- `isActive(execId)`. -/
def isActive (reg : List String) (e : String) : Bool :=
  decide (e ∈ reg)

/-- `activeCount`. -/
def activeCount (reg : List String) : Nat := reg.length

/-- The return value produced on `AbortError`. -/
def abortedReturn : RetVal := RetVal.failTyped ("Aborted") ("Execution cancelled")

/-- `execute(runtimeUrl, code, {execId, callbacks})`: register the abort
controller under `execId`, run the request to its outcome, and in `finally`
delete the registration.  On HTTP or network failure the constructed
`ConnectionError` is passed to `onError` and the error is rethrown; on
`AbortError` the aborted result is returned and `onError` is not called. -/
def executeRun (reg : List String) (execId : Option String) (outcome : FetchOutcome) :
    ExecEnd :=
  let reg1 := match execId with
    | some e => insertReg reg e
    | none => reg
  let finish := fun (r : List String) => match execId with
    | some e => removeReg r e
    | none => r
  match outcome with
  | FetchOutcome.httpErr status body =>
    let msg := ("MRP request failed: ") ++ toString status ++ (" ") ++ body
    { retval := none, thrown := some msg,
      calls := [CbCall.onError (Sum.inl ⟨("ConnectionError"), msg⟩)],
      reg := finish reg1 }
  | FetchOutcome.netErrEarly msg =>
    { retval := none, thrown := some msg,
      calls := [CbCall.onError (Sum.inl ⟨("ConnectionError"), msg⟩)],
      reg := finish reg1 }
  | FetchOutcome.netErrMid consumed msg =>
    { retval := none, thrown := some msg,
      calls := CbCall.onStart :: (processEvents consumed).1 ++
        [CbCall.onError (Sum.inl ⟨("ConnectionError"), msg⟩)],
      reg := finish reg1 }
  | FetchOutcome.abortEarly =>
    { retval := some abortedReturn, thrown := none, calls := [], reg := finish reg1 }
  | FetchOutcome.abortMid consumed =>
    { retval := some abortedReturn, thrown := none,
      calls := CbCall.onStart :: (processEvents consumed).1, reg := finish reg1 }
  | FetchOutcome.complete events =>
    { retval := some ((processEvents events).2.getD RetVal.okTrue), thrown := none,
      calls := CbCall.onStart :: (processEvents events).1 ++ [CbCall.onDone],
      reg := finish reg1 }

/-- `cancel(execId)`: look the controller up and abort it when present;
returns whether `abort()` was invoked.  `AbortController.abort()` makes the
pending `fetch`/read of the registered `execute` call reject with an
`AbortError` (platform semantics), i.e. that call settles with an
`abortEarly`/`abortMid` outcome. -/
def cancelReg (reg : List String) (e : String) : Bool :=
  decide (e ∈ reg)

/-- Whether the consumed frames contain a runtime-reported `error` event. -/
def hasErrorEvent (events : List (String × EvData)) : Bool :=
  events.any (fun ev => ev.1 = "error")

/-- Whether a call log contains any `onError` invocation. -/
def hasOnErrorCall (calls : List CbCall) : Bool :=
  calls.any (fun c => match c with
    | CbCall.onError _ => true
    | _ => false)

/-- The empty shared map. -/
def emptyExecMap : ExecMap := fun _ => none

/-- A concrete freshly-requested record, as `requestExecution` creates it. -/
def sampleRecord : ExecRecord :=
  { id := ("exec-1"), cellId := none, code := ("print(1)"), language := ("python"),
    runtimeUrl := ("http://localhost:8000"), session := ("default"),
    status := ExecStatus.requested, requestedBy := 3, requestedAt := 50,
    claimedBy := none, claimedAt := none, outputBlockReady := false,
    outputPosition := none, startedAt := none, completedAt := none,
    stdinRequest := none, stdinResponse := none, result := none, error := none,
    displayData := [] }

/-- `sampleRecord` after a successful claim by client 7 at time 100. -/
def sampleClaimed : ExecRecord :=
  { sampleRecord with
      status := ExecStatus.claimed
      claimedBy := some 7
      claimedAt := some 100 }

/-! ## Theorems -/

theorem dropWhile_length_le (p : Char → Bool) (l : List Char) :
    (l.dropWhile p).length ≤ l.length := by
  induction l with
  | nil => simp
  | cons c t ih =>
    rw [List.dropWhile_cons]
    split
    · simp only [List.length_cons]
      omega
    · simp

theorem escSplit_rest_le (l : List Char) : (escSplit l).rest.length ≤ l.length := by
  have hbody : (escBody l).length ≤ l.length := by
    unfold escBody
    split
    · cases l with
      | nil => simp
      | cons c t => simp
    · exact Nat.le_refl _
  have hdrop : ((escBody l).dropWhile isParamChar).length ≤ (escBody l).length :=
    dropWhile_length_le _ _
  unfold escSplit
  split
  · simp
  · next c rest heq =>
    have : (c :: rest).length ≤ (escBody l).length := heq ▸ hdrop
    simp only [List.length_cons] at this
    simp only []
    omega

theorem scanStep_fst (m : ScanMode) (b : TermBuf) (c : Char) :
    (scanStep (m, b) c).1 = scanModeStep m c := by
  cases m <;> simp only [scanStep, scanModeStep] <;>
    repeat' first
      | rfl
      | split

theorem foldl_scan_fst (l : List Char) :
    ∀ (m : ScanMode) (b : TermBuf),
      (l.foldl scanStep (m, b)).1 = l.foldl scanModeStep m := by
  induction l with
  | nil => intro m b; rfl
  | cons c rest ih =>
    intro m b
    rw [List.foldl_cons, List.foldl_cons]
    rcases hs : scanStep (m, b) c with ⟨m', b'⟩
    have hm : m' = scanModeStep m c := by
      have := scanStep_fst m b c
      rw [hs] at this
      exact this
    rw [hm] at hs ⊢
    exact ih _ b'

theorem escApply_none (b : TermBuf) (priv : Bool) (ps : List Char) :
    escApply b priv ps none = b := by
  unfold escApply
  split <;> rfl

theorem escSplit_cmd_none_rest (l : List Char) (h : (escSplit l).cmd = none) :
    (escSplit l).rest = [] := by
  unfold escSplit at h ⊢
  split at h <;> simp_all

/-- Scanning the parameter bytes: while every character is a parameter byte
the scan stays in `csiBody`; at the first non-parameter byte the command
fires. -/
theorem foldl_csiBody_all (l : List Char) :
    ∀ (priv : Bool) (ps : List Char) (b : TermBuf),
      (∀ c ∈ l, isParamChar c = true) →
      l.foldl scanStep (ScanMode.csiBody priv ps, b) = (ScanMode.csiBody priv (ps ++ l), b) := by
  induction l with
  | nil => intro priv ps b _; simp
  | cons c rest ih =>
    intro priv ps b h
    have hc : isParamChar c = true := h c (by simp)
    rw [List.foldl_cons]
    have hstep : scanStep (ScanMode.csiBody priv ps, b) c =
        (ScanMode.csiBody priv (ps ++ [c]), b) := by
      simp [scanStep, hc]
    rw [hstep, ih _ _ _ (fun x hx => h x (by simp [hx]))]
    simp

theorem foldl_csiBody_cmd (l : List Char) :
    ∀ (c : Char) (rest : List Char) (priv : Bool) (ps : List Char) (b : TermBuf),
      l.dropWhile isParamChar = c :: rest →
      l.foldl scanStep (ScanMode.csiBody priv ps, b) =
        rest.foldl scanStep
          (ScanMode.text, escApply b priv (ps ++ l.takeWhile isParamChar) (some c)) := by
  induction l with
  | nil => intro c rest priv ps b h; simp [List.dropWhile] at h
  | cons x t ih =>
    intro c rest priv ps b h
    rw [List.dropWhile_cons] at h
    rw [List.takeWhile_cons]
    by_cases hx : isParamChar x = true
    · rw [if_pos hx] at h
      rw [hx]
      simp only [if_true]
      rw [List.foldl_cons]
      have hstep : scanStep (ScanMode.csiBody priv ps, b) x =
          (ScanMode.csiBody priv (ps ++ [x]), b) := by
        simp [scanStep, hx]
      rw [hstep, ih c rest priv (ps ++ [x]) b h]
      simp
    · rw [if_neg hx] at h
      injection h with h1 h2
      subst h1
      subst h2
      have hxf : isParamChar x = false := by simpa using hx
      rw [hxf]
      simp only [Bool.false_eq_true, if_false]
      rw [List.foldl_cons]
      have hstep : scanStep (ScanMode.csiBody priv ps, b) x =
          (ScanMode.text, escApply b priv ps (some x)) := by
        simp [scanStep, hxf]
      rw [hstep]
      simp

/-- Scanning a CSI body agrees with `escSplit`: the buffer obtained by the
one-step scan equals the buffer obtained by applying the split sequence and
continuing with its remainder (when the command byte is missing both sides
leave the buffer untouched). -/
theorem foldl_csiStart_snd (r2 : List Char) (b : TermBuf) :
    (r2.foldl scanStep (ScanMode.csiStart, b)).2 =
      ((escSplit r2).rest.foldl scanStep
        (ScanMode.text,
          escApply b (escSplit r2).priv (escSplit r2).params (escSplit r2).cmd)).2 := by
  cases r2 with
  | nil =>
    simp [escSplit, escBody, List.dropWhile, escApply_none]
  | cons c0 t =>
    by_cases h0 : c0 = '?'
    · subst h0
      have hbody : escBody ('?' :: t) = t := by simp [escBody]
      have hpriv : escPriv ('?' :: t) = true := by simp [escPriv]
      rw [List.foldl_cons]
      have hstep : scanStep (ScanMode.csiStart, b) '?' = (ScanMode.csiBody true [], b) := by
        simp [scanStep]
      rw [hstep]
      unfold escSplit
      rw [hbody, hpriv]
      rcases hd : t.dropWhile isParamChar with _ | ⟨c1, rest⟩
      · have hall : ∀ c ∈ t, isParamChar c = true := List.dropWhile_eq_nil_iff.mp hd
        rw [foldl_csiBody_all t true [] b hall]
        simp [escApply_none]
      · rw [foldl_csiBody_cmd t c1 rest true [] b hd]
        simp
    · have hbody : escBody (c0 :: t) = c0 :: t := by
        simp [escBody, h0]
      have hpriv : escPriv (c0 :: t) = false := by
        simp [escPriv, h0]
      unfold escSplit
      rw [hbody, hpriv, List.dropWhile_cons, List.takeWhile_cons]
      by_cases hp : isParamChar c0 = true
      · rw [hp]
        simp only [if_true]
        rw [List.foldl_cons]
        have hstep : scanStep (ScanMode.csiStart, b) c0 = (ScanMode.csiBody false [c0], b) := by
          simp [scanStep, h0, hp]
        rw [hstep]
        rcases hd : t.dropWhile isParamChar with _ | ⟨c1, rest⟩
        · have hall : ∀ c ∈ t, isParamChar c = true := List.dropWhile_eq_nil_iff.mp hd
          rw [foldl_csiBody_all t false [c0] b hall]
          simp [escApply_none]
        · rw [foldl_csiBody_cmd t c1 rest false [c0] b hd]
          simp
      · have hpf : isParamChar c0 = false := by simpa using hp
        rw [hpf]
        simp only [Bool.false_eq_true, if_false]
        rw [List.foldl_cons]
        have hstep : scanStep (ScanMode.csiStart, b) c0 =
            (ScanMode.text, escApply b false [] (some c0)) := by
          simp only [scanStep]
          rw [if_neg h0, if_neg (by simp [hpf])]
        rw [hstep]

/-- The one-step scan and the lookahead scan of `write` compute the same
buffer. -/
theorem writeChars_eq_scan_aux (n : Nat) :
    ∀ (l : List Char), l.length ≤ n → ∀ (b : TermBuf), writeChars b l = scanWrite b l := by
  induction n with
  | zero =>
    intro l hl b
    have hnil : l = [] := List.length_eq_zero.mp (Nat.le_zero.mp hl)
    subst hnil
    rw [writeChars]
    rfl
  | succ n ih =>
    intro l hl b
    cases l with
    | nil =>
      rw [writeChars]
      rfl
    | cons c rest =>
      by_cases hc : c = '\x1b' ∧ rest.head? = some '['
      · obtain ⟨hesc, hhead⟩ := hc
        subst hesc
        rcases rest with _ | ⟨r0, r2⟩
        · simp at hhead
        · have hr0 : r0 = '[' := by simpa using hhead
          subst hr0
          rw [writeChars]
          rw [if_pos ⟨rfl, rfl⟩]
          simp only [List.tail_cons]
          have hlen : (escSplit r2).rest.length ≤ n := by
            have h1 := escSplit_rest_le r2
            simp only [List.length_cons] at hl
            omega
          rw [ih (escSplit r2).rest hlen]
          unfold scanWrite
          rw [List.foldl_cons, List.foldl_cons]
          have h1 : scanStep (ScanMode.text, b) '\x1b' = (ScanMode.sawEsc, b) := by
            simp [scanStep]
          have h2 : scanStep (ScanMode.sawEsc, b) '[' = (ScanMode.csiStart, b) := by
            simp [scanStep]
          rw [h1, h2]
          exact (foldl_csiStart_snd r2 b).symm
      · rw [writeChars, if_neg hc]
        have hlen : rest.length ≤ n := by
          simp only [List.length_cons] at hl
          omega
        rw [ih rest hlen]
        unfold scanWrite
        rw [List.foldl_cons]
        by_cases he : c = '\x1b'
        · subst he
          have hv : charStep b '\x1b' = b := by
            unfold charStep
            repeat rw [if_neg (by decide)]
          rw [hv]
          have h1 : scanStep (ScanMode.text, b) '\x1b' = (ScanMode.sawEsc, b) := by
            simp [scanStep]
          rw [h1]
          rcases rest with _ | ⟨r0, t⟩
          · rfl
          · have hr0 : ¬ r0 = '[' := by
              intro h
              exact hc ⟨rfl, by simp [h]⟩
            rw [List.foldl_cons, List.foldl_cons]
            have hsame : scanStep (ScanMode.sawEsc, b) r0 = scanStep (ScanMode.text, b) r0 := by
              simp only [scanStep]
              rw [if_neg hr0]
            rw [hsame]
        · have h1 : scanStep (ScanMode.text, b) c = (ScanMode.text, charStep b c) := by
            simp [scanStep, he]
          rw [h1]

theorem writeChars_eq_scan (b : TermBuf) (l : List Char) :
    writeChars b l = scanWrite b l :=
  writeChars_eq_scan_aux l.length l (Nat.le_refl _) b

theorem chunkComplete_fold (a : List Char) (h : chunkComplete a = true) (b : TermBuf) :
    a.foldl scanStep (ScanMode.text, b) = (ScanMode.text, scanWrite b a) := by
  have hm : a.foldl scanModeStep ScanMode.text = ScanMode.text := of_decide_eq_true h
  have h1 := foldl_scan_fst a ScanMode.text b
  rw [hm] at h1
  exact Prod.ext h1 rfl

/-- Writing scan-complete chunks one call at a time equals writing their
concatenation. -/
theorem writeAll_chunkComplete (chunks : List (List Char))
    (h : ∀ a ∈ chunks, chunkComplete a = true) :
    ∀ b : TermBuf, writeAll b chunks = writeChars b chunks.flatten := by
  induction chunks with
  | nil =>
    intro b
    unfold writeAll
    rw [List.foldl_nil, List.flatten_nil, writeChars]
  | cons a cs ih =>
    intro b
    have ha : chunkComplete a = true := h a (by simp)
    have hcs : ∀ x ∈ cs, chunkComplete x = true := fun x hx => h x (by simp [hx])
    have step1 : writeAll b (a :: cs) = writeAll (writeChars b a) cs := rfl
    rw [step1, ih hcs (writeChars b a), List.flatten_cons]
    rw [writeChars_eq_scan, writeChars_eq_scan, writeChars_eq_scan]
    unfold scanWrite
    rw [List.foldl_append, chunkComplete_fold a ha b]

/-! ### Claims about the terminal projector -/
/-- C2, counterexample: splitting the escape sequence `ESC [ 2 J` across two
`write` calls changes the snapshot (`write` keeps no escape state between
calls), so write/snapshot is not chunk-boundary independent for arbitrary
chunk lists. -/
theorem write_chunk_split_escape_cex :
    ¬ (writeAll TermBuf.start [("\x1b").data, ("[2J").data]).snapshot =
      (writeChars TermBuf.start (List.flatten [("\x1b").data, ("[2J").data])).snapshot := by
  unfold writeAll
  simp only [List.foldl_cons, List.foldl_nil, writeChars_eq_scan]
  decide

/-- C2 (amended): write/snapshot is chunk-boundary independent provided no
chunk boundary splits an escape sequence — scanning each chunk by itself
must end in ordinary text mode (no dangling `ESC`, no unterminated CSI
sequence).  Then writing the chunks one at a time into a fresh projector
gives the same snapshot as writing their concatenation into a fresh
projector. -/
theorem write_chunk_independence_amended (chunks : List (List Char))
    (h : ∀ a ∈ chunks, chunkComplete a = true) :
    (writeAll TermBuf.start chunks).snapshot =
      (writeChars TermBuf.start chunks.flatten).snapshot := by
  rw [writeAll_chunkComplete chunks h]

theorem write_chunk_independence_witness :
    (∀ a ∈ [("ab").data, ("\x1b[2J").data, ("cd").data], chunkComplete a = true) ∧
    (writeAll TermBuf.start [("ab").data, ("\x1b[2J").data, ("cd").data]).snapshot =
      (writeChars TermBuf.start
        (List.flatten [("ab").data, ("\x1b[2J").data, ("cd").data])).snapshot :=
  ⟨by decide, write_chunk_independence_amended _ (by decide)⟩

/-- C3 (code bug): `const n = nums[0] || 1` collapses an explicit `0`
parameter to `1`, so the `n === 0` test in the `J`/`K` cases is
unreachable.  `ESC [ 0 J` therefore runs the `n === 1` branch — erasing
from the start of the screen through the cursor, exactly like `ESC [ 1 J` —
instead of erasing to the end of the screen like `ESC [ J`; likewise for
`K`.  Evaluated on the buffer holding `abllo` with the cursor at column 2
of row 0 (produced by `hello\rab`). -/
theorem erase_zero_param_bug :
    (TermBuf.write TermBuf.start ("hello\rab\x1b[0J")).snapshot = ("   lo") ∧
    (TermBuf.write TermBuf.start ("hello\rab\x1b[1J")).snapshot = ("   lo") ∧
    (TermBuf.write TermBuf.start ("hello\rab\x1b[J")).snapshot = ("ab") ∧
    (TermBuf.write TermBuf.start ("hello\rab\x1b[0K")).snapshot = ("   lo") ∧
    (TermBuf.write TermBuf.start ("hello\rab\x1b[1K")).snapshot = ("   lo") ∧
    (TermBuf.write TermBuf.start ("hello\rab\x1b[K")).snapshot = ("ab") := by
  unfold TermBuf.write
  simp only [writeChars_eq_scan]
  exact ⟨by decide, by decide, by decide, by decide, by decide, by decide⟩

/-- C8, counterexample: after writing `line1\nline2\r\x1b[1Aover` into a
fresh projector, row 0 of the buffer (before trailing-space trimming) is
`over1` — the final `1` of `line1` survives the overwrite — not `over `. -/
theorem terminal_example_row0_cex :
    ¬ (TermBuf.write TermBuf.start ("line1\nline2\r\x1b[1Aover")).lines.getD 0 []
        = ("over ").data := by
  unfold TermBuf.write
  rw [writeChars_eq_scan]
  decide

/-- C8 (amended): `hi\rHELLO` snapshots to `HELLO`; `line1\nline2\r\x1b[1Aover`
leaves row 0 = `over1` and row 1 = `line2` before trimming, and snapshots
to `over1\nline2`. -/
theorem terminal_examples_amended :
    (TermBuf.write TermBuf.start ("hi\rHELLO")).snapshot = ("HELLO") ∧
    (TermBuf.write TermBuf.start ("line1\nline2\r\x1b[1Aover")).lines.getD 0 []
      = ("over1").data ∧
    (TermBuf.write TermBuf.start ("line1\nline2\r\x1b[1Aover")).lines.getD 1 []
      = ("line2").data ∧
    (TermBuf.write TermBuf.start ("line1\nline2\r\x1b[1Aover")).snapshot = ("over1\nline2") := by
  unfold TermBuf.write
  simp only [writeChars_eq_scan]
  exact ⟨by decide, by decide, by decide, by decide⟩

/-! ### Properties of the substring search -/
theorem findSubAux_shift (t pat : List Char) :
    ∀ i, findSubAux t pat i = (findSubAux t pat 0).map (fun k => k + i) := by
  induction t with
  | nil =>
    intro i
    unfold findSubAux
    split <;> simp
  | cons c rest ih =>
    intro i
    unfold findSubAux
    split
    · simp
    · rw [ih (i + 1), ih 1]
      rcases hr : findSubAux rest pat 0 with _ | k
      · rfl
      · show some (k + (i + 1)) = some (k + 1 + i)
        congr 1
        omega

theorem findSubAux_sound (t pat : List Char) :
    ∀ j, findSubAux t pat 0 = some j → (t.drop j).take pat.length = pat := by
  induction t with
  | nil =>
    intro j h
    unfold findSubAux at h
    split at h
    · next hp =>
      injection h with h1
      subst h1
      simp [hp]
    · exact Option.noConfusion h
  | cons c rest ih =>
    intro j h
    unfold findSubAux at h
    split at h
    · next hp =>
      injection h with h1
      subst h1
      simpa using hp
    · rw [findSubAux_shift rest pat 1] at h
      rcases hr : findSubAux rest pat 0 with _ | k
      · rw [hr] at h
        exact Option.noConfusion h
      · rw [hr] at h
        have h1 : k + 1 = j := Option.some.inj h
        subst h1
        rw [List.drop_succ_cons]
        exact ih k hr

theorem findSubAux_complete (t pat : List Char) :
    ∀ k, (t.drop k).take pat.length = pat → (findSubAux t pat 0).isSome = true := by
  induction t with
  | nil =>
    intro k h
    rw [List.drop_nil] at h
    have hp : pat = [] := by
      rw [List.take_nil] at h
      exact h.symm
    unfold findSubAux
    rw [if_pos hp]
    rfl
  | cons c rest ih =>
    intro k h
    unfold findSubAux
    split
    · rfl
    · next hne =>
      cases k with
      | zero => exact absurd (by simpa using h) hne
      | succ k0 =>
        rw [List.drop_succ_cons] at h
        rw [findSubAux_shift rest pat 1]
        have hih := ih k0 h
        rcases hr : findSubAux rest pat 0 with _ | m
        · rw [hr] at hih; simp at hih
        · rfl

theorem findSubAux_min (t pat : List Char) :
    ∀ j, findSubAux t pat 0 = some j →
      ∀ k, k < j → ¬ (t.drop k).take pat.length = pat := by
  induction t with
  | nil =>
    intro j h k hk
    unfold findSubAux at h
    split at h
    · injection h with h1
      omega
    · exact Option.noConfusion h
  | cons c rest ih =>
    intro j h k hk
    unfold findSubAux at h
    split at h
    · injection h with h1
      omega
    · next hne =>
      rw [findSubAux_shift rest pat 1] at h
      rcases hr : findSubAux rest pat 0 with _ | m
      · rw [hr] at h
        exact Option.noConfusion h
      · rw [hr] at h
        have h1 : m + 1 = j := Option.some.inj h
        subst h1
        cases k with
        | zero => simpa using hne
        | succ k0 =>
          rw [List.drop_succ_cons]
          exact ih m hr k0 (by omega)

theorem indexOfFrom_sound (text pat : List Char) (start : Nat) :
    ∀ j, indexOfFrom text pat start = some j →
      start ≤ j ∧ (text.drop j).take pat.length = pat := by
  intro j h
  unfold indexOfFrom at h
  rcases hf : findSubAux (text.drop start) pat 0 with _ | k
  · rw [hf] at h; exact Option.noConfusion h
  · rw [hf] at h
    injection h with h1
    subst h1
    have hs := findSubAux_sound (text.drop start) pat k hf
    rw [List.drop_drop] at hs
    constructor
    · omega
    · exact hs

theorem indexOfFrom_complete (text pat : List Char) (start : Nat) :
    ∀ j, start ≤ j → (text.drop j).take pat.length = pat →
      (indexOfFrom text pat start).isSome = true := by
  intro j hle h
  unfold indexOfFrom
  have hocc : ((text.drop start).drop (j - start)).take pat.length = pat := by
    rw [List.drop_drop]
    have heq : start + (j - start) = j := by omega
    rw [heq]
    exact h
  have hc := findSubAux_complete (text.drop start) pat (j - start) hocc
  rcases hf : findSubAux (text.drop start) pat 0 with _ | k
  · rw [hf] at hc; simp at hc
  · rfl

theorem indexOfFrom_min (text pat : List Char) (start : Nat) :
    ∀ j, indexOfFrom text pat start = some j →
      ∀ k, start ≤ k → k < j → ¬ (text.drop k).take pat.length = pat := by
  intro j h k hks hkj
  unfold indexOfFrom at h
  rcases hf : findSubAux (text.drop start) pat 0 with _ | m
  · rw [hf] at h; exact Option.noConfusion h
  · rw [hf] at h
    injection h with h1
    subst h1
    have hmin := findSubAux_min (text.drop start) pat m hf (k - start) (by omega)
    rw [List.drop_drop] at hmin
    have heq : start + (k - start) = k := by omega
    rw [heq] at hmin
    exact hmin

theorem markerAt_le_length (text execId : List Char) (i : Nat)
    (h : MarkerAt text execId i) : i ≤ text.length := by
  by_contra hgt
  push_neg at hgt
  unfold MarkerAt at h
  rw [List.drop_eq_nil_of_le (by omega), List.take_nil] at h
  have hlen := congrArg List.length h
  have h10 : (("```output:").data).length = 10 := rfl
  simp only [List.length_nil, markerFor, List.length_append, h10] at hlen
  omega

theorem drop_getD_zero (l : List Char) (j : Nat) (d : Char) :
    (l.drop j).getD 0 d = l.getD j d := by
  rw [List.getD_eq_getElem?_getD, List.getD_eq_getElem?_getD, List.getElem?_drop]
  rw [Nat.add_zero]

/-- C5, counterexample: in the text `` ```output:abc2\nX\n``` `` — whose only
marker line carries execId `abc2` — querying execId `abc`, a proper prefix
of `abc2`, still returns a block, because the marker is located by plain
substring search.  No exact marker line for `abc` exists in that text. -/
theorem findOutputBlock_prefix_cex :
    (∀ i, ¬ SpecExactMarkerLineAt (("```output:abc2\nX\n```").data) (("abc").data) i) ∧
    findOutputBlock (("```output:abc2\nX\n```").data) (("abc").data) ≠ none := by
  constructor
  · intro i h
    have hle := markerAt_le_length _ _ _ h.1
    have hlen : ((("```output:abc2\nX\n```").data).length) = 20 := by decide
    rw [hlen] at hle
    have hdec : ∀ i' ≤ 20,
        ¬ SpecExactMarkerLineAt (("```output:abc2\nX\n```").data) (("abc").data) i' := by
      decide
    exact hdec i hle h
  · decide

/-- C5 (amended): `findOutputBlock` returns a block iff the text contains
the substring `` ```output:<execId> `` — not necessarily as a whole line
and not necessarily with that exact execId, any extension matches too —
with a newline at or after the occurrence.  In particular a block *is*
returned when the only marker carries a longer execId of which the queried
one is a proper prefix. -/
theorem findOutputBlock_isSome_iff (text execId : List Char) :
    (findOutputBlock text execId).isSome = true ↔
      ∃ i j, MarkerAt text execId i ∧ i ≤ j ∧ j < text.length ∧
        text.getD j ' ' = '\n' := by
  constructor
  · intro h
    unfold findOutputBlock at h
    rcases hm : indexOfFrom text (markerFor execId) 0 with _ | m
    · rw [hm] at h; simp at h
    · rw [hm] at h
      dsimp only at h
      rcases hn : indexOfFrom text (('\n') :: []) m with _ | nl
      · rw [hn] at h; simp at h
      · obtain ⟨-, hocc⟩ := indexOfFrom_sound text (markerFor execId) 0 m hm
        obtain ⟨hmn, hocc2⟩ := indexOfFrom_sound text (('\n') :: []) m nl hn
        refine ⟨m, nl, hocc, hmn, ?_, ?_⟩
        · by_contra hz
          push_neg at hz
          rw [List.drop_eq_nil_of_le (by omega), List.take_nil] at hocc2
          exact List.noConfusion hocc2
        · cases hdrop : text.drop nl with
          | nil =>
            rw [hdrop, List.take_nil] at hocc2
            exact absurd hocc2 (by simp)
          | cons x xs =>
            rw [hdrop] at hocc2
            have hx : x = '\n' := by
              have h1 : (x :: xs).take 1 = ('\n') :: [] := hocc2
              simpa using h1
            rw [← drop_getD_zero text nl ' ', hdrop, hx]
            rfl
  · rintro ⟨i, j, hmark, hij, hjlen, hjc⟩
    unfold findOutputBlock
    have hc1 := indexOfFrom_complete text (markerFor execId) 0 i (Nat.zero_le _) hmark
    rcases hm : indexOfFrom text (markerFor execId) 0 with _ | m
    · rw [hm] at hc1; simp at hc1
    · have hmle : m ≤ i := by
        by_contra hgt
        push_neg at hgt
        exact indexOfFrom_min text (markerFor execId) 0 m hm i (Nat.zero_le _) hgt hmark
      have hnocc : (text.drop j).take (('\n') :: []).length = ('\n') :: [] := by
        cases hdrop : text.drop j with
        | nil =>
          have := congrArg List.length hdrop
          rw [List.length_drop] at this
          simp at this
          omega
        | cons x xs =>
          have hx : x = '\n' := by
            rw [← drop_getD_zero text j ' ', hdrop] at hjc
            simpa using hjc
          simp [hx]
      have hc2 := indexOfFrom_complete text (('\n') :: []) m j (by omega) hnocc
      dsimp only
      rcases hn : indexOfFrom text (('\n') :: []) m with _ | nl
      · rw [hn] at hc2; simp at hc2
      · rfl

theorem findClosingAux_bounds (text : List Char) :
    ∀ (fuel searchPos pos : Nat), findClosingAux text fuel searchPos = some pos →
      searchPos ≤ pos ∧ pos + 3 ≤ text.length := by
  intro fuel
  induction fuel with
  | zero => intro searchPos pos h; exact Option.noConfusion h
  | succ fuel ih =>
    intro searchPos pos h
    unfold findClosingAux at h
    split at h
    · rcases hf : indexOfFrom text (('`') :: ('`') :: ('`') :: []) searchPos with _ | p
      · rw [hf] at h; exact Option.noConfusion h
      · rw [hf] at h
        dsimp only at h
        obtain ⟨hsp, hocc⟩ := indexOfFrom_sound text _ searchPos p hf
        have hplen : p + 3 ≤ text.length := by
          have hl := congrArg List.length hocc
          rw [List.length_take, List.length_drop] at hl
          simp at hl
          omega
        split at h
        · injection h with h1
          subst h1
          exact ⟨hsp, hplen⟩
        · obtain ⟨h1, h2⟩ := ih (p + 3) pos h
          exact ⟨by omega, h2⟩
    · exact Option.noConfusion h

theorem findOutputBlock_bounds (text execId : List Char) (b : OutputBlock)
    (h : findOutputBlock text execId = some b) :
    b.contentStart ≤ b.contentEnd ∧ b.contentEnd ≤ text.length := by
  unfold findOutputBlock at h
  rcases hm : indexOfFrom text (markerFor execId) 0 with _ | m
  · rw [hm] at h; exact Option.noConfusion h
  · rw [hm] at h
    dsimp only at h
    rcases hn : indexOfFrom text (('\n') :: []) m with _ | nl
    · rw [hn] at h; exact Option.noConfusion h
    · rw [hn] at h
      dsimp only at h
      have hb := Option.some.inj h
      obtain ⟨hmn, hocc2⟩ := indexOfFrom_sound text (('\n') :: []) m nl hn
      have hnl : nl < text.length := by
        by_contra hz
        push_neg at hz
        rw [List.drop_eq_nil_of_le (by omega), List.take_nil] at hocc2
        exact List.noConfusion hocc2
      rcases hc : findClosingAux text (text.length + 1) (nl + 1) with _ | pos
      · rw [hc] at hb
        rw [← hb]
        simp only [Option.getD]
        omega
      · rw [hc] at hb
        rw [← hb]
        obtain ⟨h1, h2⟩ := findClosingAux_bounds text (text.length + 1) (nl + 1) pos hc
        simp only [Option.getD]
        omega

/-- C4, counterexample: `replaceOutput` issues the deletion and the
insertion as two separate `Y.Text` operations without a wrapping
transaction, so the document passes through an observable intermediate
state in which the output region is empty; on `` ```output:e1\nold\n``` ``
replacing the content with `new\n` produces two observable states, the
first with the region's content empty and the second with content `new\n`.
This refutes the claim that no observer can see an intermediate state. -/
theorem replaceOutput_intermediate_cex :
    (replaceOutput (("```output:e1\nold\n```").data) (("e1").data) (("new\n").data)).2.length
        = 2 ∧
    getOutputContent
        ((replaceOutput (("```output:e1\nold\n```").data) (("e1").data)
          (("new\n").data)).2.getD 0 []) (("e1").data) = some [] ∧
    getOutputContent
        ((replaceOutput (("```output:e1\nold\n```").data) (("e1").data)
          (("new\n").data)).2.getD 1 []) (("e1").data) = some (("new\n").data) := by
  refine ⟨by decide, by decide, by decide⟩

/-- C4 (amended): when the block exists, `replaceOutput` returns true and
its final document state is the text with `[contentStart, contentEnd)`
replaced by the new content; but the deletion and insertion are two
separate operations — when the existing region is non-empty the observable
state sequence is exactly the deleted state followed by the inserted
state, not a single atomic step. -/
theorem replaceOutput_eq_of_found (text execId content : List Char) (b : OutputBlock)
    (h : findOutputBlock text execId = some b) :
    replaceOutput text execId content =
      if 0 < b.contentEnd - b.contentStart then
        (true, [ytextDelete text b.contentStart (b.contentEnd - b.contentStart),
                ytextInsert (ytextDelete text b.contentStart (b.contentEnd - b.contentStart))
                  b.contentStart content])
      else (true, [ytextInsert text b.contentStart content]) := by
  unfold replaceOutput
  rw [h]

theorem replaceOutput_amended (text execId content : List Char) (b : OutputBlock)
    (h : findOutputBlock text execId = some b) :
    (replaceOutput text execId content).1 = true ∧
    (replaceOutput text execId content).2.getLastD [] =
      text.take b.contentStart ++ content ++ text.drop b.contentEnd ∧
    (0 < b.contentEnd - b.contentStart →
      (replaceOutput text execId content).2 =
        [ytextDelete text b.contentStart (b.contentEnd - b.contentStart),
         ytextInsert (ytextDelete text b.contentStart (b.contentEnd - b.contentStart))
           b.contentStart content]) := by
  obtain ⟨hce, hlen⟩ := findOutputBlock_bounds text execId b h
  rw [replaceOutput_eq_of_found text execId content b h]
  by_cases hpos : 0 < b.contentEnd - b.contentStart
  · rw [if_pos hpos]
    refine ⟨rfl, ?_, fun _ => rfl⟩
    show ytextInsert (ytextDelete text b.contentStart (b.contentEnd - b.contentStart))
        b.contentStart content =
      text.take b.contentStart ++ content ++ text.drop b.contentEnd
    unfold ytextInsert ytextDelete
    have hadd : b.contentStart + (b.contentEnd - b.contentStart) = b.contentEnd := by omega
    rw [hadd]
    have htk : (text.take b.contentStart).length = b.contentStart := by
      rw [List.length_take]
      omega
    rw [List.take_left' htk, List.drop_left' htk]
  · rw [if_neg hpos]
    refine ⟨rfl, ?_, fun hcontra => absurd hcontra hpos⟩
    show ytextInsert text b.contentStart content =
      text.take b.contentStart ++ content ++ text.drop b.contentEnd
    unfold ytextInsert
    have hcs : b.contentEnd = b.contentStart := by omega
    rw [hcs]

theorem replaceOutput_amended_witness :
    findOutputBlock (("```output:e1\nold\n```").data) (("e1").data) = some ⟨0, 13, 17⟩ ∧
    (replaceOutput (("```output:e1\nold\n```").data) (("e1").data) (("new\n").data)).1
        = true ∧
    (replaceOutput (("```output:e1\nold\n```").data) (("e1").data)
        (("new\n").data)).2.getLastD [] =
      (("```output:e1\nold\n```").data).take 13 ++ (("new\n").data) ++
        (("```output:e1\nold\n```").data).drop 17 :=
  ⟨by decide,
    (replaceOutput_amended (("```output:e1\nold\n```").data) (("e1").data)
      (("new\n").data) ⟨0, 13, 17⟩ (by decide)).1,
    (replaceOutput_amended (("```output:e1\nold\n```").data) (("e1").data)
      (("new\n").data) ⟨0, 13, 17⟩ (by decide)).2.1⟩

/-! ### Claims about the coordination protocol -/
/-- C1 (confirmed): `claimExecution` returns false and leaves the map
unchanged when the record is absent, when its status is not `requested`,
or when its `claimedBy` is non-null; otherwise it returns true and
replaces the whole record, in a single map write, with one identical
except `status = claimed`, `claimedBy` the caller's client id and
`claimedAt` the current time. -/
theorem claimExecution_spec (m : ExecMap) (clientId now : Nat) (execId : String) :
    (m execId = none → claimExecution m clientId now execId = (false, m)) ∧
    (∀ exec, m execId = some exec → exec.status ≠ ExecStatus.requested →
      claimExecution m clientId now execId = (false, m)) ∧
    (∀ exec, m execId = some exec → exec.claimedBy ≠ none →
      claimExecution m clientId now execId = (false, m)) ∧
    (∀ exec, m execId = some exec → exec.status = ExecStatus.requested →
      exec.claimedBy = none →
      claimExecution m clientId now execId =
        (true, mapSet m execId
          { exec with
              status := ExecStatus.claimed
              claimedBy := some clientId
              claimedAt := some now })) := by
  refine ⟨?_, ?_, ?_, ?_⟩
  · intro h
    unfold claimExecution
    rw [h]
  · intro exec h hs
    unfold claimExecution
    rw [h]
    dsimp only
    rw [if_pos hs]
  · intro exec h hc
    unfold claimExecution
    rw [h]
    dsimp only
    by_cases hs : exec.status ≠ ExecStatus.requested
    · rw [if_pos hs]
    · rw [if_neg hs, if_pos hc]
  · intro exec h hs hc
    unfold claimExecution
    rw [h]
    dsimp only
    rw [if_neg (by simp [hs]), if_neg (by simp [hc])]

theorem claimExecution_spec_witness :
    (mapSet emptyExecMap ("exec-1") sampleRecord) ("exec-1") = some sampleRecord ∧
    sampleRecord.status = ExecStatus.requested ∧
    sampleRecord.claimedBy = none ∧
    claimExecution (mapSet emptyExecMap ("exec-1") sampleRecord) 7 100 ("exec-1") =
      (true, mapSet (mapSet emptyExecMap ("exec-1") sampleRecord) ("exec-1")
        { sampleRecord with
            status := ExecStatus.claimed
            claimedBy := some 7
            claimedAt := some 100 }) :=
  ⟨by decide, rfl, rfl,
    (claimExecution_spec (mapSet emptyExecMap ("exec-1") sampleRecord) 7 100
      ("exec-1")).2.2.2 sampleRecord (by decide) rfl rfl⟩

/-- C10 (confirmed): a successful claim changes only `status`, `claimedBy`
and `claimedAt`; every other field of the written record is the one
read. -/
theorem claimExecution_frame (m : ExecMap) (clientId now : Nat) (execId : String)
    (exec r : ExecRecord) (hm : m execId = some exec)
    (hs : (claimExecution m clientId now execId).1 = true)
    (hr : (claimExecution m clientId now execId).2 execId = some r) :
    r.id = exec.id ∧ r.cellId = exec.cellId ∧ r.code = exec.code ∧
    r.language = exec.language ∧ r.runtimeUrl = exec.runtimeUrl ∧
    r.session = exec.session ∧ r.requestedBy = exec.requestedBy ∧
    r.requestedAt = exec.requestedAt ∧ r.outputBlockReady = exec.outputBlockReady ∧
    r.outputPosition = exec.outputPosition ∧ r.startedAt = exec.startedAt ∧
    r.completedAt = exec.completedAt ∧ r.stdinRequest = exec.stdinRequest ∧
    r.stdinResponse = exec.stdinResponse ∧ r.result = exec.result ∧
    r.error = exec.error ∧ r.displayData = exec.displayData ∧
    r.status = ExecStatus.claimed ∧ r.claimedBy = some clientId ∧
    r.claimedAt = some now := by
  unfold claimExecution at hs hr
  rw [hm] at hs hr
  dsimp only at hs hr
  by_cases h1 : exec.status ≠ ExecStatus.requested
  · rw [if_pos h1] at hs
    simp at hs
  · rw [if_neg h1] at hs hr
    by_cases h2 : exec.claimedBy ≠ none
    · rw [if_pos h2] at hs
      simp at hs
    · rw [if_neg h2] at hr
      have hv : mapSet m execId
          { exec with
              status := ExecStatus.claimed
              claimedBy := some clientId
              claimedAt := some now } execId = some r := hr
      unfold mapSet at hv
      rw [if_pos rfl] at hv
      have hrr : r =
          { exec with
              status := ExecStatus.claimed
              claimedBy := some clientId
              claimedAt := some now } := (Option.some.inj hv).symm
      subst hrr
      exact ⟨rfl, rfl, rfl, rfl, rfl, rfl, rfl, rfl, rfl, rfl, rfl, rfl, rfl,
        rfl, rfl, rfl, rfl, rfl, rfl, rfl⟩

theorem claimExecution_frame_witness :
    (mapSet emptyExecMap ("exec-1") sampleRecord) ("exec-1") = some sampleRecord ∧
    (claimExecution (mapSet emptyExecMap ("exec-1") sampleRecord) 7 100 ("exec-1")).1
      = true ∧
    (claimExecution (mapSet emptyExecMap ("exec-1") sampleRecord) 7 100
        ("exec-1")).2 ("exec-1") = some sampleClaimed ∧
    (sampleClaimed.code = sampleRecord.code ∧
      sampleClaimed.status = ExecStatus.claimed ∧
      sampleClaimed.claimedBy = some 7) :=
  ⟨by decide, by decide, by decide,
    let h := claimExecution_frame (mapSet emptyExecMap ("exec-1") sampleRecord) 7 100
      ("exec-1") sampleRecord sampleClaimed (by decide) (by decide) (by decide)
    ⟨h.2.2.1, h.2.2.2.2.2.2.2.2.2.2.2.2.2.2.2.2.2.1, h.2.2.2.2.2.2.2.2.2.2.2.2.2.2.2.2.2.2.1⟩⟩

/-! ### Claims about the execution id generator -/
theorem digitChar_isDigit (k : Nat) (h : k < 10) : (digitChar k).isDigit = true := by
  interval_cases k <;> decide

theorem natToDecAux_digits :
    ∀ (fuel n : Nat) (acc : List Char), (∀ c ∈ acc, Char.isDigit c = true) →
      ∀ c ∈ natToDecAux fuel n acc, Char.isDigit c = true := by
  intro fuel
  induction fuel with
  | zero => intro n acc hacc c hc; exact hacc c hc
  | succ fuel ih =>
    intro n acc hacc c hc
    unfold natToDecAux at hc
    have hacc1 : ∀ c2 ∈ digitChar (n % 10) :: acc, Char.isDigit c2 = true := by
      intro c2 hc2
      rcases List.mem_cons.mp hc2 with h0 | h0
      · rw [h0]
        exact digitChar_isDigit (n % 10) (Nat.mod_lt n (by omega))
      · exact hacc c2 h0
    split at hc
    · exact hacc1 c hc
    · exact ih (n / 10) (digitChar (n % 10) :: acc) hacc1 c hc

theorem natToDecAux_suffix :
    ∀ (fuel n : Nat) (acc : List Char), ∃ l, natToDecAux fuel n acc = l ++ acc := by
  intro fuel
  induction fuel with
  | zero => intro n acc; exact ⟨[], rfl⟩
  | succ fuel ih =>
    intro n acc
    unfold natToDecAux
    split
    · exact ⟨[digitChar (n % 10)], rfl⟩
    · obtain ⟨l, hl⟩ := ih (n / 10) (digitChar (n % 10) :: acc)
      refine ⟨l ++ [digitChar (n % 10)], ?_⟩
      rw [hl]
      simp

theorem natToDec_ne_nil (n : Nat) : natToDec n ≠ [] := by
  unfold natToDec natToDecAux
  split
  · simp
  · obtain ⟨l, hl⟩ := natToDecAux_suffix n (n / 10) (digitChar (n % 10) :: [])
    rw [hl]
    simp

/-- C7, counterexample: `Math.random()` may return exactly 0, whose base-36
rendering is `"0"`; then `slice(2, 8)` is empty and the generated id
`exec-5-` has no random suffix at all, failing `^exec-\d+-[0-9a-z]{6}$`. -/
theorem generateExecId_regex_cex :
    ValidRandomRepr (('0') :: []) ∧
    ¬ MatchesExecIdExact (generateExecId 5 (('0') :: [])) := by
  constructor
  · exact Or.inl rfl
  · rintro ⟨d, r, hd, -, hr6, -, hs⟩
    have hlen := congrArg List.length hs
    have h7 : (generateExecId 5 (('0') :: [])).length = 7 := by decide
    have h5 : (("exec-").data).length = 5 := by decide
    rw [h7] at hlen
    simp only [List.length_append, List.length_cons, h5, hr6] at hlen
    have hd1 : 1 ≤ d.length := by
      cases d with
      | nil => exact absurd rfl hd
      | cons x xs => simp
    omega

/-- C7 (amended): for every clock value and every possible output of
`Math.random().toString(36)`, the generated id matches
`^exec-\d+-[0-9a-z]{0,6}$` — the random suffix consists of base-36
characters but its length is only AT MOST six; it is shorter whenever the
random value's base-36 expansion has fewer than six fractional digits. -/
theorem generateExecId_relaxed (now : Nat) (s : List Char)
    (h : ValidRandomRepr s) :
    ∃ d r, d ≠ [] ∧ (∀ c ∈ d, Char.isDigit c = true) ∧ r.length ≤ 6 ∧
      (∀ c ∈ r, isBase36Char c = true) ∧
      generateExecId now s = ("exec-").data ++ d ++ ('-') :: r := by
  refine ⟨natToDec now, (s.drop 2).take 6, natToDec_ne_nil now, ?_, ?_, ?_, rfl⟩
  · intro c hc
    exact natToDecAux_digits (now + 1) now [] (by simp) c hc
  · rw [List.length_take]
    exact min_le_left _ _
  · intro c hc
    rcases h with h0 | ⟨ds, hne, hds, hs⟩
    · rw [h0] at hc
      simp at hc
    · rw [hs] at hc
      have hdrop : (('0') :: ('.') :: ds).drop 2 = ds := rfl
      rw [hdrop] at hc
      exact hds c (List.take_subset _ _ hc)

theorem generateExecId_relaxed_witness :
    ValidRandomRepr (("0.abcdefg").data) ∧
    ∃ d r, d ≠ [] ∧ (∀ c ∈ d, Char.isDigit c = true) ∧ r.length ≤ 6 ∧
      (∀ c ∈ r, isBase36Char c = true) ∧
      generateExecId 5 (("0.abcdefg").data) = ("exec-").data ++ d ++ ('-') :: r :=
  ⟨Or.inr ⟨("abcdefg").data, by decide, by decide, by decide⟩,
    generateExecId_relaxed 5 (("0.abcdefg").data)
      (Or.inr ⟨("abcdefg").data, by decide, by decide, by decide⟩)⟩

/-! ### Claims about the runtime client -/
theorem handleEvent_no_onError (event : String) (d : EvData)
    (h : event ≠ ("error")) : hasOnErrorCall (handleEvent event d).1 = false := by
  unfold handleEvent
  repeat' split
  all_goals rfl

theorem processEvents_no_onError (events : List (String × EvData))
    (h : hasErrorEvent events = false) :
    hasOnErrorCall (processEvents events).1 = false := by
  induction events with
  | nil => rfl
  | cons ev rest ih =>
    unfold hasErrorEvent at h
    rw [List.any_cons] at h
    rcases Bool.or_eq_false_iff.mp h with ⟨h1, h2⟩
    have hne : ev.1 ≠ ("error") := by
      intro hcon
      rw [hcon] at h1
      simp at h1
    unfold processEvents
    dsimp only
    unfold hasOnErrorCall
    rw [List.any_append]
    have ha := handleEvent_no_onError ev.1 ev.2 hne
    have hb := ih h2
    unfold hasOnErrorCall at ha hb
    rw [ha, hb]
    rfl

/-- C6 (confirmed): an in-flight `execute` call registered under `execId`
is found by `cancel`, which invokes `abort()` on its controller; the call
then settles with the `AbortError` outcome and returns
`{success: false, error: {type: "Aborted", message: "Execution cancelled"}}`
without throwing and without invoking `onError` (the only `onError`
invocations a cancelled run can contain come from runtime-reported `error`
frames consumed before the abort; with none consumed, `onError` is never
invoked).  The same holds when the abort lands before the stream opens. -/
theorem cancel_aborted_execute (reg : List String) (e : String)
    (consumed : List (String × EvData)) (h : hasErrorEvent consumed = false) :
    cancelReg (insertReg reg e) e = true ∧
    (executeRun reg (some e) (FetchOutcome.abortMid consumed)).retval
        = some abortedReturn ∧
    (executeRun reg (some e) (FetchOutcome.abortMid consumed)).thrown = none ∧
    hasOnErrorCall (executeRun reg (some e) (FetchOutcome.abortMid consumed)).calls
        = false ∧
    (executeRun reg (some e) FetchOutcome.abortEarly).retval = some abortedReturn ∧
    (executeRun reg (some e) FetchOutcome.abortEarly).thrown = none ∧
    hasOnErrorCall (executeRun reg (some e) FetchOutcome.abortEarly).calls = false := by
  refine ⟨?_, rfl, rfl, ?_, rfl, rfl, rfl⟩
  · unfold cancelReg insertReg
    split
    · next hin => simpa using hin
    · simp
  · show hasOnErrorCall (CbCall.onStart :: (processEvents consumed).1) = false
    unfold hasOnErrorCall
    rw [List.any_cons]
    have hp := processEvents_no_onError consumed h
    unfold hasOnErrorCall at hp
    rw [hp]
    rfl

theorem cancel_aborted_execute_witness :
    hasErrorEvent [(("stdout"),
        [(("content"), ("hi")), (("accumulated"), ("hi"))])] = false ∧
    (cancelReg (insertReg [] ("exec-1")) ("exec-1") = true ∧
      (executeRun [] (some ("exec-1"))
        (FetchOutcome.abortMid [(("stdout"),
          [(("content"), ("hi")), (("accumulated"), ("hi"))])])).retval
          = some abortedReturn ∧
      (executeRun [] (some ("exec-1"))
        (FetchOutcome.abortMid [(("stdout"),
          [(("content"), ("hi")), (("accumulated"), ("hi"))])])).thrown = none ∧
      hasOnErrorCall (executeRun [] (some ("exec-1"))
        (FetchOutcome.abortMid [(("stdout"),
          [(("content"), ("hi")), (("accumulated"), ("hi"))])])).calls = false ∧
      (executeRun [] (some ("exec-1")) FetchOutcome.abortEarly).retval
          = some abortedReturn ∧
      (executeRun [] (some ("exec-1")) FetchOutcome.abortEarly).thrown = none ∧
      hasOnErrorCall (executeRun [] (some ("exec-1"))
        FetchOutcome.abortEarly).calls = false) :=
  ⟨by decide,
    cancel_aborted_execute [] ("exec-1")
      [(("stdout"), [(("content"), ("hi")), (("accumulated"), ("hi"))])] (by decide)⟩

/-- C9 (confirmed): for every starting registry, execution id and outcome
of the request — completion, HTTP failure, network failure, or abort — the
`finally` block removes `execId` from the active-executions registry, so
after the call settles `isActive(execId)` is false and `activeCount`
counts only the other registered ids. -/
theorem execute_cleanup (reg : List String) (e : String) (outcome : FetchOutcome) :
    (executeRun reg (some e) outcome).reg = removeReg reg e ∧
    isActive (executeRun reg (some e) outcome).reg e = false ∧
    activeCount (executeRun reg (some e) outcome).reg = (removeReg reg e).length := by
  have hregv : (executeRun reg (some e) outcome).reg
      = removeReg (insertReg reg e) e := by
    cases outcome <;> rfl
  have hkey : removeReg (insertReg reg e) e = removeReg reg e := by
    unfold insertReg removeReg
    split
    · rfl
    · rw [List.filter_append]
      simp
  have hnotin : isActive (removeReg reg e) e = false := by
    unfold isActive removeReg
    simp [List.mem_filter]
  refine ⟨?_, ?_, ?_⟩
  · rw [hregv, hkey]
  · rw [hregv, hkey]
    exact hnotin
  · rw [hregv, hkey]
    rfl
